import Mathlib

/-!
Verification of the `ncproj-rs` pipeline: a shallow embedding of the
Spatial Index Builder (`src/index.rs`) and the Streaming Aggregation
Engine (`src/dump.rs`), with theorems settling the specification claims.

Modelling conventions:
* `f64`/`f32` sample and coordinate values are modelled as `ℚ` (exact
  arithmetic; rounding and non-finite values are outside the scope of the
  claims settled here).  The `f32::MAX` / `f32::MIN` sentinels used by the
  aggregation worker are exactly representable rationals.
* Fallible operations (`unwrap`, slice indexing that can panic) are
  modelled with `Option`, a panic becoming `none`.
* The external `geo` crate's polygon/polygon predicates (`intersects`,
  `contains`) are black-box collaborators and are kept abstract as a
  record of Boolean predicates; the polygon centroid of a plain ring,
  which the builder applies to its own rectangle, is modelled exactly by
  the standard area-weighted (shoelace) formula the crate implements.
* Euclidean centroid distance is kept abstract (`dist` parameter) in the
  candidate-buffer development: every theorem about the buffer holds for
  an arbitrary distance function, in particular for the crate's
  `euclidean_distance`; concrete witnesses use the squared distance,
  which induces the same ordering.
-/

namespace NcProj

/-- A planar point with rational coordinates (models `geo_types::Point<f64>`). -/
structure Pt where
  x : ℚ
  y : ℚ
  deriving DecidableEq, Repr

/-- A polygon: one exterior ring plus interior rings (models
`geo_types::Polygon<f64>`, whose `interiors` hold the holes). -/
structure GPolygon where
  exterior : List Pt
  interiors : List (List Pt)
  deriving DecidableEq, Repr

/-- The polygon/polygon predicates the Index Builder borrows from the
external `geo` crate (`Intersects` and `Contains`); kept abstract since the
crate is a black-box collaborator. -/
structure GeoOps where
  intersects : GPolygon → GPolygon → Bool
  containsP : GPolygon → GPolygon → Bool

/-- Squared Euclidean distance between two points; it induces the same
ordering as `euclidean_distance` (square root is strictly monotone), and is
used to instantiate the abstract distance in concrete witnesses. -/
def sqDist (p q : Pt) : ℚ :=
  (p.x - q.x) ^ 2 + (p.y - q.y) ^ 2

/-- Twice the signed (shoelace) area of a ring, summed over consecutive
point pairs, as the `geo` crate computes it. -/
def shoelace2 (ps : List Pt) : ℚ :=
  (ps.zip ps.tail).foldl (fun acc pq => acc + (pq.1.x * pq.2.y - pq.2.x * pq.1.y)) 0

/-- Area-weighted centroid of a simple ring, following the `geo` crate's
`Centroid` algorithm for a hole-free polygon; `none` when the signed area is
zero (the crate's `centroid()` yields no point there, and the builder's
`unwrap()` panics). -/
def ringCentroid (ps : List Pt) : Option Pt :=
  let a2 := shoelace2 ps
  if a2 = 0 then none
  else
    let cx := (ps.zip ps.tail).foldl
      (fun acc pq => acc + (pq.1.x + pq.2.x) * (pq.1.x * pq.2.y - pq.2.x * pq.1.y)) 0
    let cy := (ps.zip ps.tail).foldl
      (fun acc pq => acc + (pq.1.y + pq.2.y) * (pq.1.x * pq.2.y - pq.2.x * pq.1.y)) 0
    some ⟨cx / (3 * a2), cy / (3 * a2)⟩

/-- The five-point closed ring of a grid cell's geographic rectangle, as
built in `index.rs` (`Polygon::new(LineString::from(vec![...]), vec![])`). -/
def cellRing (lon lat dlon dlat : ℚ) : List Pt :=
  [⟨lon, lat⟩, ⟨lon + dlon, lat⟩, ⟨lon + dlon, lat + dlat⟩,
    ⟨lon, lat + dlat⟩, ⟨lon, lat⟩]

/-- The `index_polygon` of grid cell `(i, j)`: the cell rectangle built from
the coordinate axes, the longitude first corrected by `-360`, with the axis
spacing `axis[1] - axis[0]` as the cell size (`index.rs`). -/
def indexPolygon (lons lats : List ℚ) (i j : Nat) : GPolygon :=
  ⟨cellRing (lons.getD i 0 - 360) (lats.getD j 0)
    (lons.getD 1 0 - lons.getD 0 0) (lats.getD 1 0 - lats.getD 0 0), []⟩

/-- The polygon kept for a shape record: the first polygon of the converted
multipolygon, `multipolygon.into_iter().next().unwrap()` in `index.rs`
(`none` models the panic on a shape with no polygon). -/
def regionPolygon (mp : List GPolygon) : Option GPolygon :=
  mp.head?

/-- A polygon reduced to its outer ring, every interior ring (hole) removed. -/
def dropHoles (p : GPolygon) : GPolygon :=
  ⟨p.exterior, []⟩

/-- Modelled from the spec: the region boundary the specification describes,
namely the outer ring only of the shape's first polygon with its holes
dropped; stated for comparison with `regionPolygon`, which is what
`index.rs` actually keeps. -/
def regionPolygonSpec (mp : List GPolygon) : Option GPolygon :=
  mp.head?.map dropHoles

/-! ### The Index Builder candidate buffer (`index.rs`, worker loop) -/

/-- One candidate-buffer entry `(distance, county id, county polygon)`,
mirroring the Rust `(f64, &str, &Polygon<f64>)` tuple. -/
abbrev Entry := ℚ × String × GPolygon

/-- The builder's backward scan: starting from the end of the buffer, count
how many consecutive entries (taken from the back) have distance strictly
greater than the new distance.  The input list is the reversed buffer, so
this is the number of loop iterations of
`while index != 0 && distance < buffer[index-1].0 { index -= 1; }`. -/
def backScan (d : ℚ) : List ℚ → Nat
  | [] => 0
  | x :: xs => if d < x then backScan d xs + 1 else 0

/-- Insertion at a position, as `Vec::insert` does (the builder only ever
inserts at a position at most the current length). -/
def insertAt : Nat → Entry → List Entry → List Entry
  | 0, e, l => e :: l
  | _ + 1, e, [] => [e]
  | n + 1, e, x :: l => x :: insertAt n e l

/-- One step of the candidate scan for a single county: compute the ordered
insertion position by the backward scan, insert when the position is below
`buffer_size`, then pop the tail when the buffer overflows (`index.rs`). -/
def bufferStep (bufferSize : Nat) (buf : List Entry) (e : Entry) : List Entry :=
  let idx := buf.length - backScan e.1 ((buf.map (·.1)).reverse)
  let buf1 := if idx < bufferSize then insertAt idx e buf else buf
  if bufferSize < buf1.length then buf1.dropLast else buf1

/-- The candidate-buffer entry formed for one county: distance from the
county centroid to the cell's `index_point`, with the county id and polygon. -/
def entryOf (dist : Pt → Pt → ℚ) (indexPoint : Pt) (r : String × Pt × GPolygon) : Entry :=
  (dist r.2.1 indexPoint, r.1, r.2.2)

/-- The candidate buffer left after scanning every county once for one grid
cell (the `for (k, (point, polygon)) in counties.iter()` loop). -/
def finalBuffer (bufferSize : Nat) (dist : Pt → Pt → ℚ) (indexPoint : Pt)
    (counties : List (String × Pt × GPolygon)) : List Entry :=
  counties.foldl (fun buf r => bufferStep bufferSize buf (entryOf dist indexPoint r)) []

/-- The exact geometry test applied to every buffered candidate:
`polygon.intersects(&index_polygon) || index_polygon.contains(*polygon)
|| polygon.contains(&index_polygon)`. -/
def emitTest (g : GeoOps) (polygon indexPoly : GPolygon) : Bool :=
  g.intersects polygon indexPoly || g.containsP indexPoly polygon
    || g.containsP polygon indexPoly

/-- The whole per-cell task of an index-builder worker: build the cell
rectangle, take its centroid as `index_point` (`none` models the `unwrap`
panic on a degenerate rectangle), run the candidate scan, and emit one
`(i, j, id)` line for every buffered candidate passing the exact test. -/
def processCell (g : GeoOps) (dist : Pt → Pt → ℚ)
    (counties : List (String × Pt × GPolygon)) (bufferSize : Nat)
    (lons lats : List ℚ) (i j : Nat) : Option (List (Nat × Nat × String)) :=
  let rect := indexPolygon lons lats i j
  (ringCentroid rect.exterior).map fun indexPoint =>
    ((finalBuffer bufferSize dist indexPoint counties).filter
      fun e => emitTest g e.2.2 rect).map fun e => (i, j, e.2.1)

/-! ### The counties map (`index.rs`, `BTreeMap<String, (Point, Polygon)>`) -/

/-- Insertion into the counties map, modelled as a key-sorted association
list: `BTreeMap::insert` places a new key in order and overwrites the value
of an existing key. -/
def countiesInsert (id : String) (v : Pt × GPolygon) :
    List (String × Pt × GPolygon) → List (String × Pt × GPolygon)
  | [] => [(id, v)]
  | (k, w) :: rest =>
    if id < k then (id, v) :: (k, w) :: rest
    else if id = k then (id, v) :: rest
    else (k, w) :: countiesInsert id v rest

/-- The counties map built by the shapefile loop: one `insert` per record,
keyed by the record's `GEOID10` value. -/
def loadCounties (records : List (String × Pt × GPolygon)) :
    List (String × Pt × GPolygon) :=
  records.foldl (fun m r => countiesInsert r.1 r.2 m) []

/-- Lookup in the counties map (first entry with the given key). -/
def countiesGet (id : String) (m : List (String × Pt × GPolygon)) :
    Option (Pt × GPolygon) :=
  (m.find? fun e => e.1 = id).map (·.2)

/-! ### The Aggregation Engine's assignment loader (`dump.rs`) -/

/-- Insertion of one assignment cell into the shapes map, modelled as a
key-sorted association list: `shapes.entry(id).or_insert(Vec::new())`
followed by `indices.push((x, y))` appends the cell to the entry's list,
creating the entry when the key is new. -/
def shapesInsert (id : String) (cell : Nat × Nat) :
    List (String × List (Nat × Nat)) → List (String × List (Nat × Nat))
  | [] => [(id, [cell])]
  | (k, v) :: rest =>
    if id < k then (id, [cell]) :: (k, v) :: rest
    else if id = k then (k, v ++ [cell]) :: rest
    else (k, v) :: shapesInsert id cell rest

/-- The shapes map built from the parsed assignment lines `(x, y, id)`, in
file order; `shapes.into_iter().collect()` then yields exactly this
key-sorted list. -/
def loadShapes (lines : List (Nat × Nat × String)) :
    List (String × List (Nat × Nat)) :=
  lines.foldl (fun m l => shapesInsert l.2.2 (l.1, l.2.1) m) []

/-- The cell list recorded for one region id (empty when the id is absent). -/
def assocCells (id : String) (m : List (String × List (Nat × Nat))) :
    List (Nat × Nat) :=
  match m.find? fun e => e.1 = id with
  | some e => e.2
  | none => []

/-- The cells carried by the assignment lines of one region id, in line
order. -/
def cellsOf (id : String) (lines : List (Nat × Nat × String)) :
    List (Nat × Nat) :=
  lines.filterMap fun l => if l.2.2 = id then some (l.1, l.2.1) else none

/-! ### Timestamps (`dump.rs`, `Utc.ymd(1900, 1, 1) + Duration::days(t)`) -/

/-- Day number of a proleptic-Gregorian civil date relative to 1970-01-01,
the exact integer algorithm the `chrono` crate's calendar arithmetic
realises (truncating integer division throughout). -/
def daysFromCivil (year : Int) (month day : Int) : Int :=
  let y := if month ≤ 2 then year - 1 else year
  let era := (if 0 ≤ y then y else y - 399) / 400
  let yoe := y - era * 400
  let mp := (month + 9) % 12
  let doy := (153 * mp + 2) / 5 + day - 1
  let doe := yoe * 365 + yoe / 4 - yoe / 100 + doy
  era * 146097 + doe - 719468

/-- The timestamp printed for a time value `t` read from the primary
dataset: `(Utc.ymd(1900,1,1).and_hms(0,0,0) + Duration::days(t)).timestamp()`,
i.e. Unix epoch seconds of the reference epoch shifted by `t` days. -/
def dumpTimestamp (t : Int) : Int :=
  (daysFromCivil 1900 1 1 + t) * 86400

/-! ### The aggregation worker (`dump.rs`, min/max loop) -/

/-- The exact rational value of `f32::MAX`, `(2^24 - 1) * 2^104`. -/
def f32MAX : ℚ := (2 ^ 24 - 1) * 2 ^ 104

/-- The exact rational value of `f32::MIN`, the negation of `f32::MAX`. -/
def f32MIN : ℚ := -f32MAX

/-- One iteration of the worker's extrema loop: a sample equal to the fill
value is skipped, otherwise it lowers `min` when strictly smaller and raises
`max` when strictly larger. -/
def minMaxStep (fill : ℚ) (mm : ℚ × ℚ) (value : ℚ) : ℚ × ℚ :=
  if value = fill then mm
  else ((if value < mm.1 then value else mm.1), (if mm.2 < value then value else mm.2))

/-- The extrema fold over a list of sample values, started from the
`(f32::MAX, f32::MIN)` sentinels. -/
def minMaxFold (fill : ℚ) (samples : List ℚ) : ℚ × ℚ :=
  samples.foldl (minMaxStep fill) (f32MAX, f32MIN)

/-- Flat buffer offset of cell `(x, y)` at local time `i`:
`i * (latitudes_len * longitudes_len) + y * longitudes_len + x`. -/
def bufferIndex (latLen lonLen i x y : Nat) : Nat :=
  i * (latLen * lonLen) + y * lonLen + x

/-- The worker's per-feature computation over a region's cell list: read
each sample at its flat buffer offset (an out-of-bounds read, a panic in
Rust, is `none`) and fold the extrema. -/
def computeFeature (fill : ℚ) (buffer : List ℚ) (latLen lonLen i : Nat)
    (indices : List (Nat × Nat)) : Option (ℚ × ℚ) :=
  indices.foldlM
    (fun mm xy => (buffer[bufferIndex latLen lonLen i xy.1 xy.2]?).map (minMaxStep fill mm))
    (f32MAX, f32MIN)

/-- The samples the worker visits for a region's cell list, in list order
(defined for in-bounds offsets; used to state what `computeFeature`
computes). -/
def sampleList (buffer : List ℚ) (latLen lonLen i : Nat)
    (indices : List (Nat × Nat)) : List ℚ :=
  indices.map fun xy => buffer.getD (bufferIndex latLen lonLen i xy.1 xy.2) 0

/-! ### The chunked engine loop (`dump.rs`, steady state) -/

/-- One feature of a data file: its fill value and its gridded samples,
`dataF t y x` being the stored value of the variable at absolute time index
`t`, latitude index `y`, longitude index `x`. -/
structure Feature where
  fill : ℚ
  dataF : Nat → Nat → Nat → ℚ

/-- The reusable chunk buffer after `variable.values_to(...,
Some(&[start, 0, 0]), Some(&[len, latitudes_len, longitudes_len]))`: the
time-sliced block in row-major `[time][lat][lon]` order. -/
def loadBuffer (f : Feature) (start len latLen lonLen : Nat) : List ℚ :=
  (List.range (len * (latLen * lonLen))).map fun idx =>
    f.dataF (start + idx / (latLen * lonLen)) (idx % (latLen * lonLen) / lonLen)
      (idx % lonLen)

/-- Option-valued traversal of a list, `some` exactly when every element
maps to `some`: the run aborts (a worker panic) as soon as one element's
computation panics. -/
def mapOption {α β : Type} (f : α → Option β) : List α → Option (List β)
  | [] => some []
  | a :: l => (f a).bind fun b => (mapOption f l).map fun bs => b :: bs

/-- An output record: region id, printed timestamp, and the flat
`min, max` value list over the features in order. -/
abbrev Record := String × Int × List ℚ

/-- Flattening of per-feature `(min, max)` pairs into the record's value
list, as the worker pushes `min` then `max` per buffer. -/
def flattenMinMax (mms : List (ℚ × ℚ)) : List ℚ :=
  mms.foldr (fun mm acc => mm.1 :: mm.2 :: acc) []

/-- The record computed for one `(local_time, region)` task of a chunk:
each feature's extrema over the chunk buffer at local time `j`, the
timestamp read at `time_index_offset + j` (`none` models an out-of-bounds
buffer read panicking). -/
def chunkTask (features : List Feature) (latLen lonLen start len : Nat)
    (times : List Int) (shapes : List (String × List (Nat × Nat)))
    (j k : Nat) : Option Record :=
  let shape := shapes.getD k ("", [])
  (mapOption (fun f =>
      computeFeature f.fill (loadBuffer f start len latLen lonLen) latLen lonLen j
        shape.2) features).map
    fun mms => (shape.1, times.getD (start + j) 0, flattenMinMax mms)

/-- The `(local_time, region)` task pairs issued for one chunk, in the send
order of the driver's nested loops. -/
def taskPairs (len m : Nat) : List (Nat × Nat) :=
  ((List.range len).map fun j => (List.range m).map fun k => (j, k)).flatten

/-- All records of one chunk, one per issued task. -/
def chunkRecords (features : List Feature) (latLen lonLen start len : Nat)
    (times : List Int) (shapes : List (String × List (Nat × Nat))) :
    Option (List Record) :=
  mapOption (fun jk => chunkTask features latLen lonLen start len times shapes jk.1 jk.2)
    (taskPairs len shapes.length)

/-- The chunk list of `(0..times.len()).step_by(buffer_size)`: start index
and `min(buffer_size, times.len() - start)` length per chunk.  Structural
recursion on a fuel argument (the chunk count is at most `total` whenever
the step is at least 1; a zero step, which loops forever in Rust, exhausts
the fuel). -/
def chunksAux (bufferSize total : Nat) : Nat → Nat → List (Nat × Nat)
  | 0, _ => []
  | fuel + 1, i =>
    if i < total then (i, min bufferSize (total - i)) :: chunksAux bufferSize total fuel (i + bufferSize)
    else []

/-- The chunks the driver iterates over. -/
def chunks (bufferSize total : Nat) : List (Nat × Nat) :=
  chunksAux bufferSize total total 0

/-- Every record the engine emits for a run with the given chunk size: the
concatenation over chunks of the per-chunk records (`none` when any worker
panics).  The emission order across workers is nondeterministic; this list
fixes the task issue order, and the claims compare runs as multisets. -/
def engineRecords (bufferSize : Nat) (features : List Feature)
    (latLen lonLen : Nat) (times : List Int)
    (shapes : List (String × List (Nat × Nat))) : Option (List Record) :=
  (mapOption (fun c => chunkRecords features latLen lonLen c.1 c.2 times shapes)
      (chunks bufferSize times.length)).map List.flatten

/-- The record of one `(absolute time, region)` pair computed directly from
the gridded data, without chunking. -/
def globalTask (features : List Feature) (times : List Int)
    (shapes : List (String × List (Nat × Nat))) (t k : Nat) : Record :=
  let shape := shapes.getD k ("", [])
  (shape.1, times.getD t 0,
    flattenMinMax (features.map fun f =>
      minMaxFold f.fill (shape.2.map fun xy => f.dataF t xy.2 xy.1)))

/-- The chunking-independent record list: one record per
`(absolute time, region)` pair. -/
def globalRecords (features : List Feature) (times : List Int)
    (shapes : List (String × List (Nat × Nat))) : List Record :=
  (taskPairs times.length shapes.length).map fun tk =>
    globalTask features times shapes tk.1 tk.2

/-! ### The chunk barrier (`dump.rs`, completion counter) -/

/-- Control position of the chunk driver inside one chunk iteration. -/
inductive Phase where
  /-- about to (over)write the shared per-feature buffers for its chunk -/
  | load : Phase
  /-- buffers written; about to send the chunk's task pairs -/
  | send : Phase
  /-- polling `completed_count` until it reaches the cumulative task count -/
  | wait : Phase
  deriving DecidableEq, Repr

/-- Abstract state of the Aggregation Engine's concurrent steady-state loop:
the driver's chunk index and phase, and occupancy counters for the task
queue (`index_rx`), the workers' in-flight tasks (reads of the shared
buffers), the result queue (`data_rx`), the records dropped on a failed
send, the cumulative issued-task count (`count`), and the consumer's
completion counter (`completed_count`). -/
structure EngState where
  chunk : Nat
  phase : Phase
  queued : Nat
  inFlight : Nat
  pending : Nat
  dropped : Nat
  issued : Nat
  completed : Nat
  deriving DecidableEq, Repr

/-- The initial state: driver about to load the first chunk, nothing issued. -/
def initState : EngState :=
  ⟨0, Phase.load, 0, 0, 0, 0, 0, 0⟩

/-- Interleaved small-step transitions of the engine (`dump.rs` lines
229-276 for the driver, the worker closure, and the print thread):
`tasks c` is the number of `(local_time, region)` pairs of chunk `c`
(`time_slice_len * shapes.len()`). -/
inductive EngStep (tasks : Nat → Nat) : EngState → EngState → Prop where
  /-- the driver writes the chunk buffers (`variable.values_to` under the
  write lock) and moves on to sending -/
  | loadBuffers (s : EngState) (h : s.phase = Phase.load) :
      EngStep tasks s { s with phase := Phase.send }
  /-- the driver sends the chunk's task pairs and adds them to `count` -/
  | sendTasks (s : EngState) (h : s.phase = Phase.send) :
      EngStep tasks s { s with
        phase := Phase.wait
        queued := s.queued + tasks s.chunk
        issued := s.issued + tasks s.chunk }
  /-- the driver leaves its polling loop only once the completion counter
  equals the cumulative issued count, and proceeds to the next chunk -/
  | advance (s : EngState) (h : s.phase = Phase.wait)
      (hc : s.completed = s.issued) :
      EngStep tasks s { s with phase := Phase.load, chunk := s.chunk + 1 }
  /-- a worker dequeues a task and starts reading the shared buffers -/
  | workerTake (s : EngState) (h : 0 < s.queued) :
      EngStep tasks s { s with queued := s.queued - 1, inFlight := s.inFlight + 1 }
  /-- a worker finishes its reads and its record reaches the result queue -/
  | workerFinish (s : EngState) (h : 0 < s.inFlight) :
      EngStep tasks s { s with inFlight := s.inFlight - 1, pending := s.pending + 1 }
  /-- a worker finishes its reads but the send fails; the record is dropped -/
  | workerDrop (s : EngState) (h : 0 < s.inFlight) :
      EngStep tasks s { s with inFlight := s.inFlight - 1, dropped := s.dropped + 1 }
  /-- the consumer prints one record and bumps the completion counter -/
  | consumerPrint (s : EngState) (h : 0 < s.pending) :
      EngStep tasks s { s with pending := s.pending - 1, completed := s.completed + 1 }

/-- Reachability of an engine state from the initial state. -/
inductive Reach (tasks : Nat → Nat) : EngState → Prop where
  | init : Reach tasks initState
  | step {s t : EngState} : Reach tasks s → EngStep tasks s t → Reach tasks t

/-- The inductive invariant of the chunk-barrier model: tasks are conserved
across the queue, the workers, the consumer and the drop path, and whenever
the driver is about to (over)write the chunk buffers the completion counter
has caught up with every task issued so far. -/
def engInv (s : EngState) : Prop :=
  s.issued = s.completed + s.pending + s.inFlight + s.queued + s.dropped ∧
  (s.phase = Phase.load → s.completed = s.issued)

/-- Keys of the shapes map are strictly increasing (the `BTreeMap` shape). -/
def keysSorted (m : List (String × List (Nat × Nat))) : Prop :=
  m.Pairwise fun a b => a.1 < b.1

/-- The inductive invariant of the candidate scan: the buffer is sorted
ascending by distance, holds `min(buffer_size, processed)` entries, and the
processed entries split into the buffer and a rejected remainder every one
of whose distances is at least every buffered distance. -/
def BufInv (bufferSize : Nat) (P : Multiset Entry) (buf : List Entry) : Prop :=
  buf.Pairwise (fun a b => a.1 ≤ b.1) ∧
  buf.length = min bufferSize (Multiset.card P) ∧
  ∃ R : Multiset Entry, ↑buf + R = P ∧ ∀ b ∈ buf, ∀ r ∈ R, b.1 ≤ r.1

/-! ### Theorems -/

theorem backScan_eq_takeWhile (d : ℚ) (l : List ℚ) :
    backScan d l = (l.takeWhile fun x => d < x).length := by
  induction l with
  | nil => rfl
  | cons x xs ih =>
    by_cases hx : d < x
    · rw [backScan, if_pos hx, List.takeWhile_cons_of_pos (by simpa using hx),
        List.length_cons, ih]
    · rw [backScan, if_neg hx, List.takeWhile_cons_of_neg (by simpa using hx),
        List.length_nil]

theorem insertAt_append (xs ys : List Entry) (e : Entry) :
    insertAt xs.length e (xs ++ ys) = xs ++ e :: ys := by
  induction xs with
  | nil => rfl
  | cons x xs ih => rw [List.length_cons, List.cons_append, insertAt, ih, List.cons_append]

/-- Decomposition of a distance-sorted buffer at the backward-scan position:
the buffer splits into a prefix of entries at distance at most `d` and a
suffix of entries strictly beyond `d`, the suffix length being exactly the
backward-scan count. -/
theorem buffer_split (d : ℚ) (buf : List Entry)
    (hsort : buf.Pairwise fun a b => a.1 ≤ b.1) :
    ∃ xs ys, buf = xs ++ ys ∧
      backScan d ((buf.map (·.1)).reverse) = ys.length ∧
      (∀ e ∈ xs, e.1 ≤ d) ∧ (∀ e ∈ ys, d < e.1) := by
  refine ⟨(buf.reverse.dropWhile fun e => d < e.1).reverse,
    (buf.reverse.takeWhile fun e => d < e.1).reverse, ?_, ?_, ?_, ?_⟩
  · rw [← List.reverse_append, List.takeWhile_append_dropWhile, List.reverse_reverse]
  · rw [backScan_eq_takeWhile, ← List.map_reverse, List.takeWhile_map,
      List.length_map, List.length_reverse]
    rfl
  · intro e he
    rw [List.mem_reverse] at he
    have hdesc : buf.reverse.Pairwise fun a b => b.1 ≤ a.1 :=
      (List.pairwise_reverse).mpr hsort
    have hsub : (buf.reverse.dropWhile fun e => d < e.1).Sublist buf.reverse :=
      List.dropWhile_sublist _
    have hpw := hdesc.sublist hsub
    rcases hhead : (buf.reverse.dropWhile fun e => d < e.1) with _ | ⟨c, rest⟩
    · rw [hhead] at he
      exact absurd he (List.not_mem_nil e)
    · have hc : ¬ d < c.1 := by
        have := List.head?_dropWhile_not (fun e => decide (d < e.1)) buf.reverse
        rw [hhead] at this
        simpa using this
      rw [hhead] at he hpw
      rw [List.mem_cons] at he
      rcases he with he | he
      · subst he; exact le_of_not_lt hc
      · rw [List.pairwise_cons] at hpw
        exact le_trans (hpw.1 e he) (le_of_not_lt hc)
  · intro e he
    rw [List.mem_reverse] at he
    have := List.mem_takeWhile_imp he
    simpa using this

theorem bufInv_step (K : Nat) (P : Multiset Entry) (buf : List Entry) (e : Entry)
    (h : BufInv K P buf) : BufInv K (e ::ₘ P) (bufferStep K buf e) := by
  obtain ⟨hsort, hlen, R, hadd, hcut⟩ := h
  obtain ⟨xs, ys, hbuf, hbs, hxs, hys⟩ := buffer_split e.1 buf hsort
  have hlensplit : buf.length = xs.length + ys.length := by
    rw [hbuf, List.length_append]
  have hidx : buf.length - backScan e.1 ((buf.map (·.1)).reverse) = xs.length := by
    rw [hbs]; omega
  have hcardP : buf.length + Multiset.card R = Multiset.card P := by
    have hc := congrArg Multiset.card hadd
    simpa using hc
  obtain ⟨hpxs, hpys, hcross⟩ := List.pairwise_append.mp (hbuf ▸ hsort)
  by_cases hA : xs.length < K
  · have hstep : bufferStep K buf e =
        if K < (xs ++ e :: ys).length then (xs ++ e :: ys).dropLast
        else xs ++ e :: ys := by
      simp only [bufferStep]
      rw [hidx, if_pos hA, hbuf, insertAt_append]
    have hsorted2 : ∀ ys' : List Entry, ys'.Sublist ys →
        (xs ++ e :: ys').Pairwise fun a b => a.1 ≤ b.1 := by
      intro ys' hsub
      rw [List.pairwise_append]
      refine ⟨hpxs, ?_, ?_⟩
      · rw [List.pairwise_cons]
        exact ⟨fun b hb => le_of_lt (hys b (hsub.subset hb)), hpys.sublist hsub⟩
      · intro a ha b hb
        rw [List.mem_cons] at hb
        rcases hb with hb | hb
        · subst hb; exact hxs a ha
        · exact hcross a ha b (hsub.subset hb)
    by_cases hpop : K < (xs ++ e :: ys).length
    · have hpop' : K < buf.length + 1 := by
        simp only [List.length_append, List.length_cons] at hpop
        omega
      have hminle : min K (Multiset.card P) ≤ K := Nat.min_le_left _ _
      have hyne : ys ≠ [] := by
        intro hynil
        rw [hynil, List.length_nil] at hlensplit
        omega
      have hydecomp : ys.dropLast ++ [ys.getLast hyne] = ys :=
        List.dropLast_append_getLast hyne
      have htmem : ys.getLast hyne ∈ ys := List.getLast_mem hyne
      have htbuf : ys.getLast hyne ∈ buf := by
        rw [hbuf]; exact List.mem_append_right xs htmem
      have hdl : (xs ++ e :: ys).dropLast = xs ++ e :: ys.dropLast := by
        rw [← List.singleton_append, ← List.append_assoc,
          List.dropLast_append_of_ne_nil _ hyne, List.append_assoc,
          List.singleton_append]
      have htub : ∀ b ∈ ys.dropLast, b.1 ≤ (ys.getLast hyne).1 := by
        intro b hb
        have hpys2 := hpys
        rw [← hydecomp] at hpys2
        obtain ⟨_, _, h3⟩ := List.pairwise_append.mp hpys2
        exact h3 b hb _ (List.mem_singleton_self _)
      have helt : e.1 < (ys.getLast hyne).1 := hys _ htmem
      refine ⟨?_, ?_, ?_⟩
      · rw [hstep, if_pos hpop, hdl]
        exact hsorted2 ys.dropLast (List.dropLast_sublist ys)
      · rw [hstep, if_pos hpop, hdl]
        simp only [List.length_append, List.length_cons, Multiset.card_cons]
        have hldl : ys.dropLast.length = ys.length - 1 := List.length_dropLast ys
        have hyl : 1 ≤ ys.length := by
          rcases Nat.eq_zero_or_pos ys.length with h0 | h0
          · exact absurd (List.length_eq_zero.mp h0) hyne
          · exact h0
        omega
      · refine ⟨ys.getLast hyne ::ₘ R, ?_, ?_⟩
        · rw [hstep, if_pos hpop, hdl]
          have hlist : (xs ++ e :: ys.dropLast) ++ [ys.getLast hyne] = xs ++ e :: ys := by
            rw [List.append_assoc, List.cons_append, hydecomp]
          have hperm : ((xs ++ e :: ys.dropLast) ++ [ys.getLast hyne]).Perm (e :: buf) := by
            rw [hlist, hbuf]
            exact List.perm_middle
          have h1 : (↑((xs ++ e :: ys.dropLast) ++ [ys.getLast hyne]) : Multiset Entry) + R
              = ↑(xs ++ e :: ys.dropLast) + (ys.getLast hyne ::ₘ R) := by
            show (↑(xs ++ e :: ys.dropLast) + ↑[ys.getLast hyne]) + R = _
            rw [add_assoc]
            congr 1
          rw [← h1, Multiset.coe_eq_coe.mpr hperm]
          show (e ::ₘ ↑buf) + R = e ::ₘ P
          rw [Multiset.cons_add, hadd]
        · intro b hb r hr
          rw [hstep, if_pos hpop, hdl] at hb
          rw [Multiset.mem_cons] at hr
          have hbcases : b = e ∨ b ∈ xs ∨ b ∈ ys.dropLast := by
            rw [List.mem_append, List.mem_cons] at hb
            tauto
          rcases hr with hr | hr
          · subst hr
            rcases hbcases with hb1 | hb1 | hb1
            · subst hb1; exact le_of_lt helt
            · exact le_trans (hxs b hb1) (le_of_lt helt)
            · exact htub b hb1
          · rcases hbcases with hb1 | hb1 | hb1
            · subst hb1
              exact le_trans (le_of_lt helt) (hcut _ htbuf r hr)
            · exact hcut b (by rw [hbuf]; exact List.mem_append_left ys hb1) r hr
            · exact hcut b
                (by
                  rw [hbuf]
                  exact List.mem_append_right xs ((List.dropLast_sublist ys).subset hb1))
                r hr
    · have hnK : buf.length + 1 ≤ K := by
        simp only [List.length_append, List.length_cons] at hpop
        omega
      have hR0 : R = 0 := by
        have hminr : min K (Multiset.card P) ≤ Multiset.card P := Nat.min_le_right _ _
        have hminl : min K (Multiset.card P) ≤ K := Nat.min_le_left _ _
        have hmineq : min K (Multiset.card P) = K ∨
            min K (Multiset.card P) = Multiset.card P := min_choice _ _
        have : Multiset.card R = 0 := by omega
        exact Multiset.card_eq_zero.mp this
      refine ⟨?_, ?_, ?_⟩
      · rw [hstep, if_neg hpop]
        exact hsorted2 ys (List.Sublist.refl ys)
      · rw [hstep, if_neg hpop]
        simp only [List.length_append, List.length_cons, Multiset.card_cons]
        have hminr : min K (Multiset.card P) ≤ Multiset.card P := Nat.min_le_right _ _
        have hminl : min K (Multiset.card P) ≤ K := Nat.min_le_left _ _
        have hmineq : min K (Multiset.card P) = K ∨
            min K (Multiset.card P) = Multiset.card P := min_choice _ _
        omega
      · refine ⟨R, ?_, ?_⟩
        · rw [hstep, if_neg hpop]
          have hperm : (xs ++ e :: ys).Perm (e :: buf) := by
            rw [hbuf]; exact List.perm_middle
          rw [Multiset.coe_eq_coe.mpr hperm]
          show (e ::ₘ ↑buf) + R = e ::ₘ P
          rw [Multiset.cons_add, hadd]
        · intro b hb r hr
          rw [hR0] at hr
          exact absurd hr (Multiset.not_mem_zero r)
  · have hminl : min K (Multiset.card P) ≤ K := Nat.min_le_left _ _
    have hstep : bufferStep K buf e = buf := by
      simp only [bufferStep]
      rw [hidx, if_neg hA, if_neg (by omega)]
    have hyse : ys = [] := by
      have : ys.length = 0 := by omega
      exact List.length_eq_zero.mp this
    refine ⟨?_, ?_, ?_⟩
    · rw [hstep]; exact hsort
    · rw [hstep]
      simp only [Multiset.card_cons]
      have hminr : min K (Multiset.card P) ≤ Multiset.card P := Nat.min_le_right _ _
      have hmineq : min K (Multiset.card P) = K ∨
          min K (Multiset.card P) = Multiset.card P := min_choice _ _
      omega
    · refine ⟨e ::ₘ R, ?_, ?_⟩
      · rw [hstep, Multiset.add_cons, hadd]
      · intro b hb r hr
        rw [hstep] at hb
        rw [Multiset.mem_cons] at hr
        rcases hr with hr | hr
        · subst hr
          have hbxs : b ∈ xs := by
            rw [hbuf, hyse, List.append_nil] at hb
            exact hb
          exact hxs b hbxs
        · exact hcut b hb r hr

theorem bufInv_foldl (K : Nat) (dist : Pt → Pt → ℚ) (ip : Pt) :
    ∀ (l : List (String × Pt × GPolygon)) (P : Multiset Entry) (buf : List Entry),
      BufInv K P buf →
      BufInv K (P + ↑(l.map (entryOf dist ip)))
        (l.foldl (fun b r => bufferStep K b (entryOf dist ip r)) buf) := by
  intro l
  induction l with
  | nil => intro P buf h; simpa using h
  | cons r rs ih =>
    intro P buf h
    rw [List.foldl_cons]
    have h2 := ih (entryOf dist ip r ::ₘ P) _ (bufInv_step K P buf (entryOf dist ip r) h)
    have hms : (entryOf dist ip r ::ₘ P) + ↑(rs.map (entryOf dist ip))
        = P + ↑((r :: rs).map (entryOf dist ip)) := by
      rw [List.map_cons, Multiset.cons_add]
      show _ = P + (entryOf dist ip r ::ₘ ↑(rs.map (entryOf dist ip)))
      rw [Multiset.add_cons]
    rw [hms] at h2
    exact h2

theorem bufInv_finalBuffer (K : Nat) (dist : Pt → Pt → ℚ) (ip : Pt)
    (counties : List (String × Pt × GPolygon)) :
    BufInv K ↑(counties.map (entryOf dist ip)) (finalBuffer K dist ip counties) := by
  have h0 : BufInv K 0 [] := ⟨List.Pairwise.nil, by simp, 0, by simp, by simp⟩
  have h := bufInv_foldl K dist ip counties 0 [] h0
  rw [zero_add] at h
  exact h

theorem bufferIds_nodup (K : Nat) (dist : Pt → Pt → ℚ) (ip : Pt)
    (counties : List (String × Pt × GPolygon))
    (hids : (counties.map (·.1)).Nodup) :
    ((finalBuffer K dist ip counties).map fun e => e.2.1).Nodup := by
  obtain ⟨_, _, R, hadd, _⟩ := bufInv_finalBuffer K dist ip counties
  have hle : (↑(finalBuffer K dist ip counties) : Multiset Entry)
      ≤ ↑(counties.map (entryOf dist ip)) :=
    Multiset.le_iff_exists_add.mpr ⟨R, hadd.symm⟩
  have hmaple := Multiset.map_le_map (f := fun e : Entry => e.2.1) hle
  have hmap2 : Multiset.map (fun e : Entry => e.2.1)
        (↑(counties.map (entryOf dist ip)) : Multiset Entry)
      = ↑(counties.map (·.1)) := by
    rw [Multiset.map_coe, List.map_map]
    rfl
  rw [hmap2, Multiset.map_coe] at hmaple
  exact Multiset.coe_nodup.mp
    (Multiset.nodup_of_le hmaple (Multiset.coe_nodup.mpr hids))

theorem ringCentroid_cellRing (lon lat dlon dlat : ℚ) (h : dlon * dlat ≠ 0) :
    ringCentroid (cellRing lon lat dlon dlat) = some ⟨lon + dlon / 2, lat + dlat / 2⟩ := by
  have ha : shoelace2 (cellRing lon lat dlon dlat) = 2 * (dlon * dlat) := by
    simp [shoelace2, cellRing]
    ring
  have hne : ¬ shoelace2 (cellRing lon lat dlon dlat) = 0 := by
    rw [ha]
    intro hc
    exact h (by linarith)
  simp only [ringCentroid]
  rw [if_neg hne]
  rw [Option.some.injEq, Pt.mk.injEq, ha]
  constructor
  · simp only [cellRing, List.tail_cons, List.zip_cons_cons, List.zip_nil_right,
      List.foldl_cons, List.foldl_nil]
    rw [div_eq_iff (by intro hc; exact h (by linarith))]
    ring
  · simp only [cellRing, List.tail_cons, List.zip_cons_cons, List.zip_nil_right,
      List.foldl_cons, List.foldl_nil]
    rw [div_eq_iff (by intro hc; exact h (by linarith))]
    ring

/-- C3: for every grid cell, after scanning all regions once, the candidate
buffer holds exactly `min(K, regions)` entries — a sub-multiset of the
region entries whose distances are all at most every rejected region's
distance — sorted ascending by centroid distance to the cell's
`index_point`; consequently the number of assignment lines any single cell
produces is at most `K`.  The distance function is abstract, so the
statement covers the builder's Euclidean centroid distance. -/
theorem C3_candidate_buffer (K : Nat) (dist : Pt → Pt → ℚ) (ip : Pt)
    (counties : List (String × Pt × GPolygon)) :
    (finalBuffer K dist ip counties).length = min K counties.length ∧
    ((finalBuffer K dist ip counties).map (·.1)).Sorted (· ≤ ·) ∧
    (∃ R : Multiset Entry,
      ↑(finalBuffer K dist ip counties) + R = ↑(counties.map (entryOf dist ip)) ∧
      ∀ b ∈ finalBuffer K dist ip counties, ∀ r ∈ R, b.1 ≤ r.1) ∧
    ∀ (g : GeoOps) (lons lats : List ℚ) (i j : Nat) (out : List (Nat × Nat × String)),
      processCell g dist counties K lons lats i j = some out → out.length ≤ K := by
  obtain ⟨hs, hl, R, hadd, hcut⟩ := bufInv_finalBuffer K dist ip counties
  refine ⟨?_, (List.pairwise_map).mpr hs, ⟨R, hadd, hcut⟩, ?_⟩
  · rw [hl]
    simp
  · intro g lons lats i j out hout
    simp only [processCell] at hout
    rcases hcent : ringCentroid (indexPolygon lons lats i j).exterior with _ | ip0
    · rw [hcent] at hout
      exact absurd hout (by simp)
    · rw [hcent, Option.map_some', Option.some.injEq] at hout
      obtain ⟨_, hlc, _⟩ := bufInv_finalBuffer K dist ip0 counties
      calc out.length
          ≤ (finalBuffer K dist ip0 counties).length := by
            rw [← hout, List.length_map]
            exact List.length_filter_le _ _
        _ = min K (Multiset.card (↑(counties.map (entryOf dist ip0)) : Multiset Entry)) := hlc
        _ ≤ K := Nat.min_le_left _ _

/-- Witness for C3: one region, `K = 1`, a 2-by-2 grid; the exact test is
instantiated with predicates that always emit, and the cell produces one
line — no more than `K`. -/
theorem C3_witness :
    (finalBuffer 1 sqDist ⟨0, 0⟩ [("A", ⟨3, 4⟩, ⟨[], []⟩)]).length = min 1 1 ∧
    ([(0, 0, "A")] : List (Nat × Nat × String)).length ≤ 1 := by
  have h := C3_candidate_buffer 1 sqDist ⟨0, 0⟩ [("A", ⟨3, 4⟩, ⟨[], []⟩)]
  refine ⟨by rw [h.1]; rfl, ?_⟩
  refine h.2.2.2 ⟨fun _ _ => true, fun _ _ => false⟩ [0, 1] [0, 1] 0 0 [(0, 0, "A")] ?_
  simp [processCell, indexPolygon, cellRing, ringCentroid, shoelace2, finalBuffer,
    bufferStep, backScan, insertAt, entryOf, emitTest, sqDist]
  norm_num

/-- C1: for every grid cell `(x, y)`, the cell rectangle has corners
`(lon[x] - 360, lat[y])` and `(lon[x] - 360 + dlon, lat[y] + dlat)` with
`dlon = lon[1] - lon[0]`, `dlat = lat[1] - lat[0]`; `index_point` is that
rectangle's centroid; and for every region remaining in the candidate
buffer after the centroid scan, the worker emits the line `x y region_id`
if and only if the region's polygon intersects the rectangle, or the
rectangle contains the polygon, or the polygon contains the rectangle
(the three predicates of the exact test, over any geometry oracle). -/
theorem C1_exact_test (g : GeoOps) (dist : Pt → Pt → ℚ)
    (counties : List (String × Pt × GPolygon)) (K : Nat)
    (lons lats : List ℚ) (x y : Nat)
    (hids : (counties.map (·.1)).Nodup)
    (hd : (lons.getD 1 0 - lons.getD 0 0) * (lats.getD 1 0 - lats.getD 0 0) ≠ 0) :
    ∃ (ip : Pt) (out : List (Nat × Nat × String)),
      ringCentroid (cellRing (lons.getD x 0 - 360) (lats.getD y 0)
          (lons.getD 1 0 - lons.getD 0 0) (lats.getD 1 0 - lats.getD 0 0)) = some ip ∧
      ip = ⟨lons.getD x 0 - 360 + (lons.getD 1 0 - lons.getD 0 0) / 2,
        lats.getD y 0 + (lats.getD 1 0 - lats.getD 0 0) / 2⟩ ∧
      processCell g dist counties K lons lats x y = some out ∧
      ∀ e ∈ finalBuffer K dist ip counties,
        ((x, y, e.2.1) ∈ out ↔
          (g.intersects e.2.2 (indexPolygon lons lats x y)
            || g.containsP (indexPolygon lons lats x y) e.2.2
            || g.containsP e.2.2 (indexPolygon lons lats x y)) = true) := by
  have hcent := ringCentroid_cellRing (lons.getD x 0 - 360) (lats.getD y 0)
    (lons.getD 1 0 - lons.getD 0 0) (lats.getD 1 0 - lats.getD 0 0) hd
  refine ⟨⟨lons.getD x 0 - 360 + (lons.getD 1 0 - lons.getD 0 0) / 2,
      lats.getD y 0 + (lats.getD 1 0 - lats.getD 0 0) / 2⟩,
    ((finalBuffer K dist
        ⟨lons.getD x 0 - 360 + (lons.getD 1 0 - lons.getD 0 0) / 2,
          lats.getD y 0 + (lats.getD 1 0 - lats.getD 0 0) / 2⟩ counties).filter
      fun e => emitTest g e.2.2 (indexPolygon lons lats x y)).map
      fun e => (x, y, e.2.1),
    hcent, rfl, ?_, ?_⟩
  · simp only [processCell]
    rw [show (indexPolygon lons lats x y).exterior
        = cellRing (lons.getD x 0 - 360) (lats.getD y 0)
          (lons.getD 1 0 - lons.getD 0 0) (lats.getD 1 0 - lats.getD 0 0) from rfl,
      hcent, Option.map_some']
  · intro e he
    constructor
    · intro hmem
      obtain ⟨e', he', heq⟩ := List.mem_map.mp hmem
      have he'buf := List.mem_of_mem_filter he'
      have hnd := bufferIds_nodup K dist
        ⟨lons.getD x 0 - 360 + (lons.getD 1 0 - lons.getD 0 0) / 2,
          lats.getD y 0 + (lats.getD 1 0 - lats.getD 0 0) / 2⟩ counties hids
      simp only [Prod.mk.injEq, true_and] at heq
      have heqe : e' = e := List.inj_on_of_nodup_map hnd he'buf he heq
      subst heqe
      have := (List.mem_filter.mp he').2
      simpa [emitTest] using this
    · intro htest
      refine List.mem_map_of_mem _ (List.mem_filter.mpr ⟨he, ?_⟩)
      simpa [emitTest] using htest

/-- Witness for C1: one region named `"A"` (distinct ids), a 2-by-2 grid
with unit spacing, so the delta product is nonzero. -/
theorem C1_witness :
    ∃ (ip : Pt) (out : List (Nat × Nat × String)),
      ringCentroid (cellRing (([(0 : ℚ), 1]).getD 0 0 - 360) (([(0 : ℚ), 1]).getD 0 0)
          (([(0 : ℚ), 1]).getD 1 0 - ([(0 : ℚ), 1]).getD 0 0)
          (([(0 : ℚ), 1]).getD 1 0 - ([(0 : ℚ), 1]).getD 0 0)) = some ip ∧
      ip = ⟨([(0 : ℚ), 1]).getD 0 0 - 360 +
          (([(0 : ℚ), 1]).getD 1 0 - ([(0 : ℚ), 1]).getD 0 0) / 2,
        ([(0 : ℚ), 1]).getD 0 0 +
          (([(0 : ℚ), 1]).getD 1 0 - ([(0 : ℚ), 1]).getD 0 0) / 2⟩ ∧
      processCell ⟨fun _ _ => true, fun _ _ => false⟩ sqDist
        [("A", ⟨3, 4⟩, ⟨[], []⟩)] 1 [0, 1] [0, 1] 0 0 = some out ∧
      ∀ e ∈ finalBuffer 1 sqDist ip [("A", ⟨3, 4⟩, ⟨[], []⟩)],
        ((0, 0, e.2.1) ∈ out ↔
          ((fun (_ _ : GPolygon) => true) e.2.2 (indexPolygon [0, 1] [0, 1] 0 0)
            || (fun (_ _ : GPolygon) => false) (indexPolygon [0, 1] [0, 1] 0 0) e.2.2
            || (fun (_ _ : GPolygon) => false) e.2.2 (indexPolygon [0, 1] [0, 1] 0 0))
            = true) :=
  C1_exact_test ⟨fun _ _ => true, fun _ _ => false⟩ sqDist
    [("A", ⟨3, 4⟩, ⟨[], []⟩)] 1 [0, 1] [0, 1] 0 0 (by simp) (by norm_num)

theorem daysFromCivil_1900 : daysFromCivil 1900 1 1 = -25567 := by
  norm_num [daysFromCivil]

/-- C7: for every value `t` read from the primary dataset's time variable,
the printed timestamp equals the Unix epoch seconds of 1900-01-01T00:00:00Z
plus `t` days, that is `86400 * t - 2208988800`, in exact integer
arithmetic. -/
theorem C7_timestamp (t : Int) : dumpTimestamp t = 86400 * t - 2208988800 := by
  rw [dumpTimestamp, daysFromCivil_1900]; ring

theorem countiesGet_insert_self (id : String) (v : Pt × GPolygon)
    (m : List (String × Pt × GPolygon)) :
    countiesGet id (countiesInsert id v m) = some v := by
  induction m with
  | nil => simp [countiesInsert, countiesGet]
  | cons hd tl ih =>
    obtain ⟨hk, hv⟩ := hd
    by_cases h1 : id < hk
    · simp [countiesInsert, countiesGet, h1]
    · by_cases h2 : id = hk
      · simp [countiesInsert, countiesGet, h1, h2]
      · simpa [countiesInsert, countiesGet, h1, h2, Ne.symm h2] using ih

theorem countiesGet_insert_ne (id k : String) (v : Pt × GPolygon)
    (m : List (String × Pt × GPolygon)) (h : k ≠ id) :
    countiesGet id (countiesInsert k v m) = countiesGet id m := by
  induction m with
  | nil => simp [countiesInsert, countiesGet, h]
  | cons hd tl ih =>
    obtain ⟨hk, hv⟩ := hd
    by_cases h1 : k < hk
    · simp [countiesInsert, countiesGet, h1, h]
    · by_cases h2 : k = hk
      · subst h2; simp [countiesInsert, countiesGet, h1, h, Ne.symm h]
      · by_cases h3 : hk = id
        · subst h3; simp [countiesInsert, countiesGet, h1, h2]
        · simpa [countiesInsert, countiesGet, h1, h2, h3] using ih

theorem countiesGet_foldl_not_mem (l : List (String × Pt × GPolygon))
    (m : List (String × Pt × GPolygon)) (id : String)
    (h : id ∉ l.map (·.1)) :
    countiesGet id (l.foldl (fun m r => countiesInsert r.1 r.2 m) m) =
      countiesGet id m := by
  induction l generalizing m with
  | nil => rfl
  | cons hd tl ih =>
    simp only [List.map_cons, List.mem_cons] at h
    push_neg at h
    rw [List.foldl_cons, ih _ h.2, countiesGet_insert_ne id hd.1 hd.2 m (Ne.symm h.1)]

/-- C10: when the polygon file carries several records with one and the same
GEOID10 identifier, the builder's counties map keeps exactly the last such
record's centroid and polygon: looking the id up after the load returns the
value of the last record bearing it, whatever came before (each insert
overwrites, and the loader — a total function — raises no error). -/
theorem C10_last_duplicate_wins (pre post : List (String × Pt × GPolygon))
    (id : String) (v : Pt × GPolygon) (h : id ∉ post.map (·.1)) :
    countiesGet id (loadCounties (pre ++ (id, v) :: post)) = some v := by
  rw [loadCounties, List.foldl_append, List.foldl_cons,
    countiesGet_foldl_not_mem _ _ _ h, countiesGet_insert_self]

/-- Witness for C10: two records share the id `"A"`; the map keeps the
second record's point and polygon. -/
theorem C10_witness :
    countiesGet "A" (loadCounties
      [("A", ⟨0, 0⟩, ⟨[], []⟩), ("A", ⟨1, 1⟩, ⟨[], []⟩)]) =
      some (⟨1, 1⟩, ⟨[], []⟩) :=
  C10_last_duplicate_wins [("A", ⟨0, 0⟩, ⟨[], []⟩)] [] "A" (⟨1, 1⟩, ⟨[], []⟩)
    (by simp)

/-- C8 counterexample: a concrete shape whose first polygon carries one
interior ring.  The polygon `index.rs` keeps (`regionPolygon`, the head of
the converted multipolygon) differs from the outer-ring-only boundary the
claim describes (`regionPolygonSpec`): the interior ring is retained, not
dropped, and it is this retained polygon the intersection and containment
tests receive. -/
theorem C8_counterexample :
    regionPolygon
        [⟨[⟨0, 0⟩, ⟨10, 0⟩, ⟨10, 10⟩, ⟨0, 10⟩, ⟨0, 0⟩],
          [[⟨4, 4⟩, ⟨6, 4⟩, ⟨6, 6⟩, ⟨4, 6⟩, ⟨4, 4⟩]]⟩] ≠
      regionPolygonSpec
        [⟨[⟨0, 0⟩, ⟨10, 0⟩, ⟨10, 10⟩, ⟨0, 10⟩, ⟨0, 0⟩],
          [[⟨4, 4⟩, ⟨6, 4⟩, ⟨6, 6⟩, ⟨4, 6⟩, ⟨4, 4⟩]]⟩] := by
  decide

/-- C8 amended: the Region boundary used by the Index Builder's tests is the
first polygon of the shape's converted multipolygon, kept whole — its outer
ring together with its interior rings (holes are not dropped) — while every
polygon of the shape after the first is dropped. -/
theorem C8_first_polygon_kept (p : GPolygon) (rest : List GPolygon) :
    regionPolygon (p :: rest) = some p ∧
    (regionPolygon (p :: rest)).map GPolygon.interiors = some p.interiors ∧
    regionPolygon (p :: rest) = regionPolygon [p] :=
  ⟨rfl, rfl, rfl⟩

theorem engInv_reach (tasks : Nat → Nat) (s : EngState) (h : Reach tasks s) :
    engInv s := by
  induction h with
  | init => exact ⟨rfl, fun _ => rfl⟩
  | step hr hs ih =>
    obtain ⟨h1, h2⟩ := ih
    cases hs with
    | loadBuffers hp => exact ⟨h1, by simp⟩
    | sendTasks hp => exact ⟨by simp; omega, by simp⟩
    | advance hp hc => exact ⟨h1, fun _ => hc⟩
    | workerTake hq =>
      refine ⟨by simp; omega, fun hl => ?_⟩
      simp at hl
      have := h2 hl; simp; omega
    | workerFinish hq =>
      refine ⟨by simp; omega, fun hl => ?_⟩
      simp at hl
      have := h2 hl; simp; omega
    | workerDrop hq =>
      refine ⟨by simp; omega, fun hl => ?_⟩
      simp at hl
      have := h2 hl; simp; omega
    | consumerPrint hq =>
      refine ⟨by simp; omega, fun hl => ?_⟩
      simp at hl
      have := h2 hl; simp; omega

theorem ite_lt_eq_min (a v : ℚ) : (if v < a then v else a) = min a v := by
  rcases lt_or_ge v a with h | h
  · rw [if_pos h, min_eq_right h.le]
  · rw [if_neg (not_lt.mpr h), min_eq_left h]

theorem ite_gt_eq_max (b v : ℚ) : (if b < v then v else b) = max b v := by
  rcases lt_or_ge b v with h | h
  · rw [if_pos h, max_eq_right h.le]
  · rw [if_neg (not_lt.mpr h), max_eq_left h]

theorem filter_ne_cons_pos (fill v : ℚ) (vs : List ℚ) (hv : ¬v = fill) :
    (v :: vs).filter (fun w => w ≠ fill) = v :: vs.filter (fun w => w ≠ fill) := by
  simp [List.filter_cons, hv]

theorem filter_ne_cons_neg (fill v : ℚ) (vs : List ℚ) (hv : v = fill) :
    (v :: vs).filter (fun w => w ≠ fill) = vs.filter (fun w => w ≠ fill) := by
  simp [List.filter_cons, hv]

theorem minMaxFold_aux (fill : ℚ) (s : List ℚ) : ∀ mm : ℚ × ℚ,
    s.foldl (minMaxStep fill) mm =
      ((s.filter fun v => v ≠ fill).foldl min mm.1,
        (s.filter fun v => v ≠ fill).foldl max mm.2) := by
  induction s with
  | nil => intro mm; cases mm; rfl
  | cons v vs ih =>
    intro mm
    by_cases hv : v = fill
    · rw [filter_ne_cons_neg fill v vs hv]
      simp only [List.foldl_cons, minMaxStep, if_pos hv]
      exact ih mm
    · rw [filter_ne_cons_pos fill v vs hv]
      simp only [List.foldl_cons, minMaxStep, if_neg hv]
      rw [ih]
      simp [ite_lt_eq_min, ite_gt_eq_max]

theorem minMaxFold_eq_filter (fill : ℚ) (s : List ℚ) :
    minMaxFold fill s =
      ((s.filter fun v => v ≠ fill).foldl min f32MAX,
        (s.filter fun v => v ≠ fill).foldl max f32MIN) :=
  minMaxFold_aux fill s (f32MAX, f32MIN)

theorem foldl_min_mem (l : List ℚ) : ∀ a : ℚ, l.foldl min a ∈ a :: l := by
  induction l with
  | nil => intro a; simp
  | cons x xs ih =>
    intro a
    rw [List.foldl_cons]
    have h := ih (min a x)
    rw [List.mem_cons] at h
    rcases h with h | h
    · rcases min_choice a x with hm | hm
      · exact List.mem_cons.mpr (Or.inl (h.trans hm))
      · exact List.mem_cons.mpr (Or.inr (List.mem_cons.mpr (Or.inl (h.trans hm))))
    · exact List.mem_cons.mpr (Or.inr (List.mem_cons.mpr (Or.inr h)))

theorem foldl_min_le (l : List ℚ) : ∀ a : ℚ, ∀ v ∈ a :: l, l.foldl min a ≤ v := by
  induction l with
  | nil =>
    intro a v hv
    rw [List.mem_singleton] at hv
    subst hv
    exact le_refl _
  | cons x xs ih =>
    intro a v hv
    rw [List.mem_cons] at hv
    rcases hv with hv | hv
    · rw [hv]
      exact le_trans (ih (min a x) _ (List.mem_cons_self _ _)) (min_le_left a x)
    · rw [List.mem_cons] at hv
      rcases hv with hv | hv
      · rw [hv]
        exact le_trans (ih (min a x) _ (List.mem_cons_self _ _)) (min_le_right a x)
      · exact ih (min a x) v (List.mem_cons_of_mem _ hv)

theorem foldl_max_mem (l : List ℚ) : ∀ b : ℚ, l.foldl max b ∈ b :: l := by
  induction l with
  | nil => intro b; simp
  | cons x xs ih =>
    intro b
    rw [List.foldl_cons]
    have h := ih (max b x)
    rw [List.mem_cons] at h
    rcases h with h | h
    · rcases max_choice b x with hm | hm
      · exact List.mem_cons.mpr (Or.inl (h.trans hm))
      · exact List.mem_cons.mpr (Or.inr (List.mem_cons.mpr (Or.inl (h.trans hm))))
    · exact List.mem_cons.mpr (Or.inr (List.mem_cons.mpr (Or.inr h)))

theorem foldl_max_ge (l : List ℚ) : ∀ b : ℚ, ∀ v ∈ b :: l, v ≤ l.foldl max b := by
  induction l with
  | nil =>
    intro b v hv
    rw [List.mem_singleton] at hv
    subst hv
    exact le_refl _
  | cons x xs ih =>
    intro b v hv
    rw [List.mem_cons] at hv
    rcases hv with hv | hv
    · rw [hv]
      exact le_trans (le_max_left b x) (ih (max b x) _ (List.mem_cons_self _ _))
    · rw [List.mem_cons] at hv
      rcases hv with hv | hv
      · rw [hv]
        exact le_trans (le_max_right b x) (ih (max b x) _ (List.mem_cons_self _ _))
      · exact ih (max b x) v (List.mem_cons_of_mem _ hv)

theorem computeFeature_aux (fill : ℚ) (buffer : List ℚ) (latLen lonLen i : Nat)
    (indices : List (Nat × Nat)) (mm : ℚ × ℚ)
    (h : ∀ p ∈ indices, bufferIndex latLen lonLen i p.1 p.2 < buffer.length) :
    indices.foldlM
        (fun mm xy =>
          (buffer[bufferIndex latLen lonLen i xy.1 xy.2]?).map (minMaxStep fill mm))
        mm =
      some ((indices.map fun xy =>
          buffer.getD (bufferIndex latLen lonLen i xy.1 xy.2) 0).foldl
        (minMaxStep fill) mm) := by
  induction indices generalizing mm with
  | nil => rfl
  | cons p ps ih =>
    have hp := h p (List.mem_cons_self _ _)
    rw [List.foldlM_cons, List.getElem?_eq_getElem hp]
    simp only [Option.map_some']
    rw [Option.bind_eq_bind, Option.some_bind,
      ih _ fun q hq => h q (List.mem_cons_of_mem _ hq), List.map_cons,
      List.foldl_cons, List.getD_eq_getElem buffer 0 hp]

theorem computeFeature_eq_some (fill : ℚ) (buffer : List ℚ)
    (latLen lonLen i : Nat) (indices : List (Nat × Nat))
    (h : ∀ p ∈ indices, bufferIndex latLen lonLen i p.1 p.2 < buffer.length) :
    computeFeature fill buffer latLen lonLen i indices =
      some (minMaxFold fill (sampleList buffer latLen lonLen i indices)) :=
  computeFeature_aux fill buffer latLen lonLen i indices (f32MAX, f32MIN) h

theorem sampleList_subset (buffer : List ℚ) (latLen lonLen i : Nat)
    (indices : List (Nat × Nat))
    (h : ∀ p ∈ indices, bufferIndex latLen lonLen i p.1 p.2 < buffer.length) :
    ∀ v ∈ sampleList buffer latLen lonLen i indices, v ∈ buffer := by
  intro v hv
  obtain ⟨p, hp, hpv⟩ := List.mem_map.mp hv
  rw [← hpv, List.getD_eq_getElem buffer 0 (h p hp)]
  exact List.getElem_mem _

/-- C2: the worker computes min and max over exactly the samples at the
region's cell list whose value differs from the feature's fill value,
starting from the `f32::MAX` / `f32::MIN` sentinels: with at least one
non-fill sample the computed minimum and maximum are attained sample
values bounding every non-fill sample (so `min ≤ max`), and with zero
non-fill samples the record carries the sentinels unchanged.  The range
hypothesis states that every buffered sample is an `f32` value, hence
between the sentinels. -/
theorem C2_extrema (fill : ℚ) (buffer : List ℚ) (latLen lonLen i : Nat)
    (indices : List (Nat × Nat)) (s nf : List ℚ)
    (hs : s = sampleList buffer latLen lonLen i indices)
    (hnf : nf = s.filter fun v => v ≠ fill)
    (hin : ∀ p ∈ indices, bufferIndex latLen lonLen i p.1 p.2 < buffer.length)
    (hrange : ∀ v ∈ buffer, f32MIN ≤ v ∧ v ≤ f32MAX) :
    computeFeature fill buffer latLen lonLen i indices =
      some (minMaxFold fill s) ∧
    (nf = [] → minMaxFold fill s = (f32MAX, f32MIN)) ∧
    (nf ≠ [] →
      (minMaxFold fill s).1 ≤ (minMaxFold fill s).2 ∧
      (minMaxFold fill s).1 ∈ nf ∧ (minMaxFold fill s).2 ∈ nf ∧
      ∀ v ∈ nf, (minMaxFold fill s).1 ≤ v ∧ v ≤ (minMaxFold fill s).2) := by
  subst hs
  have hsub := sampleList_subset buffer latLen lonLen i indices hin
  set s := sampleList buffer latLen lonLen i indices with hsdef
  refine ⟨computeFeature_eq_some fill buffer latLen lonLen i indices hin,
    fun he => ?_, fun hne => ?_⟩
  · rw [minMaxFold_eq_filter, ← hnf, he]
    rfl
  · obtain ⟨v0, hv0⟩ := List.exists_mem_of_ne_nil nf hne
    have hv0s : v0 ∈ s := List.mem_of_mem_filter (hnf ▸ hv0)
    have hv0r := hrange v0 (hsub v0 hv0s)
    rw [minMaxFold_eq_filter, ← hnf]
    have hmnle : ∀ v ∈ nf, nf.foldl min f32MAX ≤ v :=
      fun v hv => foldl_min_le nf f32MAX v (List.mem_cons_of_mem _ hv)
    have hmxge : ∀ v ∈ nf, v ≤ nf.foldl max f32MIN :=
      fun v hv => foldl_max_ge nf f32MIN v (List.mem_cons_of_mem _ hv)
    have hmn : nf.foldl min f32MAX ∈ nf := by
      have h := foldl_min_mem nf f32MAX
      rw [List.mem_cons] at h
      rcases h with h | h
      · have h1 := hmnle v0 hv0
        rw [h] at h1
        have : v0 = f32MAX := le_antisymm hv0r.2 h1
        rw [h, ← this]
        exact hv0
      · exact h
    have hmx : nf.foldl max f32MIN ∈ nf := by
      have h := foldl_max_mem nf f32MIN
      rw [List.mem_cons] at h
      rcases h with h | h
      · have h1 := hmxge v0 hv0
        rw [h] at h1
        have : v0 = f32MIN := le_antisymm h1 hv0r.1
        rw [h, ← this]
        exact hv0
      · exact h
    exact ⟨le_trans (hmnle v0 hv0) (hmxge v0 hv0), hmn, hmx,
      fun v hv => ⟨hmnle v hv, hmxge v hv⟩⟩

/-- Witness for C2: the spec's concrete scenario — fill value `-9999`, a
region mapped to two cells with samples `[-9999, 7/2]` at one time step;
the record reports min and max both `7/2` (the fill sample excluded). -/
theorem C2_witness :
    computeFeature (-9999) [(-9999 : ℚ), 7/2] 1 2 0 [(0, 0), (1, 0)] =
      some (minMaxFold (-9999) (sampleList [(-9999 : ℚ), 7/2] 1 2 0 [(0, 0), (1, 0)])) ∧
    ([(7/2 : ℚ)] = [] →
      minMaxFold (-9999) (sampleList [(-9999 : ℚ), 7/2] 1 2 0 [(0, 0), (1, 0)]) =
        (f32MAX, f32MIN)) ∧
    ([(7/2 : ℚ)] ≠ [] →
      (minMaxFold (-9999) (sampleList [(-9999 : ℚ), 7/2] 1 2 0 [(0, 0), (1, 0)])).1 ≤
        (minMaxFold (-9999) (sampleList [(-9999 : ℚ), 7/2] 1 2 0 [(0, 0), (1, 0)])).2 ∧
      (minMaxFold (-9999) (sampleList [(-9999 : ℚ), 7/2] 1 2 0 [(0, 0), (1, 0)])).1 ∈
        [(7/2 : ℚ)] ∧
      (minMaxFold (-9999) (sampleList [(-9999 : ℚ), 7/2] 1 2 0 [(0, 0), (1, 0)])).2 ∈
        [(7/2 : ℚ)] ∧
      ∀ v ∈ [(7/2 : ℚ)],
        (minMaxFold (-9999) (sampleList [(-9999 : ℚ), 7/2] 1 2 0 [(0, 0), (1, 0)])).1 ≤ v ∧
        v ≤ (minMaxFold (-9999) (sampleList [(-9999 : ℚ), 7/2] 1 2 0 [(0, 0), (1, 0)])).2) :=
  C2_extrema (-9999) [(-9999 : ℚ), 7/2] 1 2 0 [(0, 0), (1, 0)]
    (sampleList [(-9999 : ℚ), 7/2] 1 2 0 [(0, 0), (1, 0)]) [(7/2 : ℚ)]
    rfl
    (by
      have hsl : sampleList [(-9999 : ℚ), 7/2] 1 2 0 [(0, 0), (1, 0)] =
          [(-9999 : ℚ), 7/2] := by
        simp [sampleList, bufferIndex]
      rw [hsl]
      symm
      norm_num [List.filter_cons])
    (by decide)
    (by
      intro v hv
      rw [List.mem_cons, List.mem_singleton] at hv
      rcases hv with h | h <;> subst h <;> constructor <;> norm_num [f32MIN, f32MAX])

theorem bufferIndex_lt (latLen lonLen chunkLen i x y : Nat)
    (hi : i < chunkLen) (hx : x < lonLen) (hy : y < latLen) :
    bufferIndex latLen lonLen i x y < chunkLen * (latLen * lonLen) := by
  have h1 : y * lonLen + x < latLen * lonLen :=
    calc y * lonLen + x < y * lonLen + lonLen := by omega
    _ = (y + 1) * lonLen := by ring
    _ ≤ latLen * lonLen := Nat.mul_le_mul_right lonLen (by omega)
  calc bufferIndex latLen lonLen i x y
      = i * (latLen * lonLen) + (y * lonLen + x) := by rw [bufferIndex]; ring
    _ < i * (latLen * lonLen) + latLen * lonLen := by omega
    _ = (i + 1) * (latLen * lonLen) := by ring
    _ ≤ chunkLen * (latLen * lonLen) := Nat.mul_le_mul_right _ (by omega)

theorem computeFeature_oob (fill : ℚ) (buffer : List ℚ) (latLen lonLen i : Nat) :
    ∀ (indices : List (Nat × Nat)) (mm : ℚ × ℚ),
      (∃ p ∈ indices, buffer.length ≤ bufferIndex latLen lonLen i p.1 p.2) →
      indices.foldlM
          (fun mm xy =>
            (buffer[bufferIndex latLen lonLen i xy.1 xy.2]?).map (minMaxStep fill mm))
          mm = none := by
  intro indices
  induction indices with
  | nil => intro mm h; obtain ⟨p, hp, _⟩ := h; exact absurd hp (List.not_mem_nil p)
  | cons q qs ih =>
    intro mm h
    by_cases hq : buffer.length ≤ bufferIndex latLen lonLen i q.1 q.2
    · rw [List.foldlM_cons, List.getElem?_eq_none hq]
      rfl
    · obtain ⟨p, hp, hpo⟩ := h
      rw [List.mem_cons] at hp
      rcases hp with hp | hp
      · subst hp; exact absurd hpo hq
      · rw [List.foldlM_cons,
          List.getElem?_eq_getElem (lt_of_not_ge hq)]
        simp only [Option.map_some']
        rw [Option.bind_eq_bind, Option.some_bind]
        exact ih _ ⟨p, hp, hpo⟩

/-- C9 counterexample: the claim says an assignment file containing an
out-of-range coordinate makes the worker's buffer read go out of bounds
(a panic); here the coordinate `(2, 0)` is out of range for a
2-longitude grid (`2 ≥ lon_len`), yet its flat offset
`0 * (2*2) + 0*2 + 2 = 2` still lands inside the 8-sample buffer, so the
worker silently reads another cell's sample and completes without any
out-of-bounds access. -/
theorem C9_counterexample :
    ¬ (2 : Nat) < 2 ∧
    computeFeature 5 [(0 : ℚ), 0, 0, 0, 0, 0, 0, 0] 2 2 0 [(2, 0)] = some (0, 0) := by
  refine ⟨by omega, ?_⟩
  simp [computeFeature, bufferIndex, minMaxStep, f32MAX, f32MIN]
  norm_num

/-- C9 amended: the flat offset
`i * (latitudes_len * longitudes_len) + y * longitudes_len + x` is used to
index the chunk buffer with no bounds check; whenever every assignment cell
satisfies `x < longitudes_len` and `y < latitudes_len` and the local time
satisfies `i < chunk_len` (the buffer holding `chunk_len` full grids), the
out-of-bounds branch of the indexing is unreachable, while any cell whose
flat offset falls outside the buffer makes the worker's read panic rather
than yield an error record; an out-of-range coordinate whose flat offset
still lands inside the buffer silently reads another cell's sample. -/
theorem C9_bounds :
    (∀ (fill : ℚ) (buffer : List ℚ) (latLen lonLen chunkLen i : Nat)
        (indices : List (Nat × Nat)),
      buffer.length = chunkLen * (latLen * lonLen) →
      i < chunkLen →
      (∀ p ∈ indices, p.1 < lonLen ∧ p.2 < latLen) →
      (computeFeature fill buffer latLen lonLen i indices).isSome) ∧
    (∀ (fill : ℚ) (buffer : List ℚ) (latLen lonLen i : Nat)
        (indices : List (Nat × Nat)),
      (∃ p ∈ indices, buffer.length ≤ bufferIndex latLen lonLen i p.1 p.2) →
      computeFeature fill buffer latLen lonLen i indices = none) := by
  constructor
  · intro fill buffer latLen lonLen chunkLen i indices hlen hi hp
    rw [computeFeature_eq_some fill buffer latLen lonLen i indices fun p hpm => by
      rw [hlen]
      exact bufferIndex_lt latLen lonLen chunkLen i p.1 p.2 hi (hp p hpm).1 (hp p hpm).2]
    rfl
  · intro fill buffer latLen lonLen i indices h
    exact computeFeature_oob fill buffer latLen lonLen i indices (f32MAX, f32MIN) h

/-- Witness for C9 amended: a one-cell in-range region completes without a
panic, and a cell whose flat offset reaches past the buffer makes the read
fail. -/
theorem C9_witness :
    (computeFeature 0 [(0 : ℚ), 0, 0, 0] 2 2 0 [(1, 1)]).isSome ∧
    computeFeature 0 [(0 : ℚ), 0, 0, 0] 2 2 0 [(0, 2)] = none :=
  ⟨C9_bounds.1 0 [(0 : ℚ), 0, 0, 0] 2 2 1 0 [(1, 1)] (by decide) (by decide) (by decide),
    C9_bounds.2 0 [(0 : ℚ), 0, 0, 0] 2 2 0 [(0, 2)] ⟨(0, 2), by decide, by decide⟩⟩

theorem mapOption_eq_some {α β : Type} (f : α → Option β) (g : α → β) :
    ∀ l : List α, (∀ a ∈ l, f a = some (g a)) → mapOption f l = some (l.map g) := by
  intro l
  induction l with
  | nil => intro _; rfl
  | cons a as ih =>
    intro h
    rw [mapOption, h a (List.mem_cons_self a as),
      ih fun b hb => h b (List.mem_cons_of_mem a hb)]
    rfl

theorem loadBuffer_getD (fi : Feature) (start len latLen lonLen j x y : Nat)
    (hj : j < len) (hx : x < lonLen) (hy : y < latLen) :
    (loadBuffer fi start len latLen lonLen).getD (bufferIndex latLen lonLen j x y) 0
      = fi.dataF (start + j) y x := by
  have hidx : bufferIndex latLen lonLen j x y < len * (latLen * lonLen) :=
    bufferIndex_lt latLen lonLen len j x y hj hx hy
  have hL : 0 < latLen * lonLen := Nat.mul_pos (by omega) (by omega)
  have hr : y * lonLen + x < latLen * lonLen :=
    calc y * lonLen + x < y * lonLen + lonLen := by omega
    _ = (y + 1) * lonLen := by ring
    _ ≤ latLen * lonLen := Nat.mul_le_mul_right lonLen (by omega)
  have hform : bufferIndex latLen lonLen j x y
      = latLen * lonLen * j + (y * lonLen + x) := by
    rw [bufferIndex]; ring
  have hform2 : bufferIndex latLen lonLen j x y
      = lonLen * (latLen * j + y) + x := by
    rw [bufferIndex]; ring
  have hdiv : bufferIndex latLen lonLen j x y / (latLen * lonLen) = j := by
    rw [hform, Nat.mul_add_div hL, Nat.div_eq_of_lt hr, add_zero]
  have hmod : bufferIndex latLen lonLen j x y % (latLen * lonLen) / lonLen = y := by
    rw [hform, Nat.mul_add_mod, Nat.mod_eq_of_lt hr,
      show y * lonLen + x = lonLen * y + x by ring,
      Nat.mul_add_div (by omega), Nat.div_eq_of_lt hx, add_zero]
  have hmodlon : bufferIndex latLen lonLen j x y % lonLen = x := by
    rw [hform2, Nat.mul_add_mod, Nat.mod_eq_of_lt hx]
  rw [List.getD_eq_getElem?_getD, loadBuffer, List.getElem?_map,
    List.getElem?_range hidx]
  simp only [Option.map_some', Option.getD_some]
  rw [hdiv, hmod, hmodlon]

theorem computeFeature_loadBuffer (fi : Feature) (start len latLen lonLen j : Nat)
    (indices : List (Nat × Nat)) (hj : j < len)
    (hind : ∀ p ∈ indices, p.1 < lonLen ∧ p.2 < latLen) :
    computeFeature fi.fill (loadBuffer fi start len latLen lonLen) latLen lonLen j
        indices
      = some (minMaxFold fi.fill
          (indices.map fun p => fi.dataF (start + j) p.2 p.1)) := by
  have hlen : (loadBuffer fi start len latLen lonLen).length
      = len * (latLen * lonLen) := by
    rw [loadBuffer, List.length_map, List.length_range]
  have hin : ∀ p ∈ indices, bufferIndex latLen lonLen j p.1 p.2 <
      (loadBuffer fi start len latLen lonLen).length := by
    intro p hp
    rw [hlen]
    exact bufferIndex_lt latLen lonLen len j p.1 p.2 hj (hind p hp).1 (hind p hp).2
  rw [computeFeature_eq_some _ _ _ _ _ _ hin]
  have hsl : sampleList (loadBuffer fi start len latLen lonLen) latLen lonLen j indices
      = indices.map fun p => fi.dataF (start + j) p.2 p.1 := by
    rw [sampleList]
    exact List.map_congr_left fun p hp =>
      loadBuffer_getD fi start len latLen lonLen j p.1 p.2 hj (hind p hp).1
        (hind p hp).2
  rw [hsl]

theorem mem_taskPairs (len m : Nat) (p : Nat × Nat) :
    p ∈ taskPairs len m ↔ p.1 < len ∧ p.2 < m := by
  obtain ⟨j, k⟩ := p
  constructor
  · intro h
    rw [taskPairs, List.mem_flatten] at h
    obtain ⟨l, hl, hmem⟩ := h
    rw [List.mem_map] at hl
    obtain ⟨j', hj', rfl⟩ := hl
    rw [List.mem_map] at hmem
    obtain ⟨k', hk', heq⟩ := hmem
    rw [List.mem_range] at hj' hk'
    cases heq
    exact ⟨hj', hk'⟩
  · rintro ⟨hjl, hkm⟩
    rw [taskPairs, List.mem_flatten]
    refine ⟨(List.range m).map fun k' => (j, k'), ?_, ?_⟩
    · exact List.mem_map_of_mem _ (List.mem_range.mpr hjl)
    · exact List.mem_map_of_mem _ (List.mem_range.mpr hkm)

theorem chunkTask_eq (features : List Feature) (latLen lonLen start len : Nat)
    (times : List Int) (shapes : List (String × List (Nat × Nat))) (j k : Nat)
    (hj : j < len)
    (hshapes : ∀ s ∈ shapes, ∀ p ∈ s.2, p.1 < lonLen ∧ p.2 < latLen) :
    chunkTask features latLen lonLen start len times shapes j k
      = some (globalTask features times shapes (start + j) k) := by
  have hind : ∀ p ∈ (shapes.getD k ("", [])).2, p.1 < lonLen ∧ p.2 < latLen := by
    by_cases hk : k < shapes.length
    · rw [List.getD_eq_getElem shapes ("", []) hk]
      exact hshapes _ (List.getElem_mem hk)
    · rw [List.getD_eq_default shapes ("", []) (by omega)]
      intro p hp
      exact absurd hp (List.not_mem_nil p)
  simp only [chunkTask, globalTask]
  rw [mapOption_eq_some
      (fun fi => computeFeature fi.fill (loadBuffer fi start len latLen lonLen)
        latLen lonLen j (shapes.getD k ("", [])).2)
      (fun fi => minMaxFold fi.fill
        (((shapes.getD k ("", [])).2).map fun p => fi.dataF (start + j) p.2 p.1))
      features
      (fun fi _ => computeFeature_loadBuffer fi start len latLen lonLen j _ hj hind)]
  rfl

theorem chunkRecords_eq (features : List Feature) (latLen lonLen start len : Nat)
    (times : List Int) (shapes : List (String × List (Nat × Nat)))
    (hshapes : ∀ s ∈ shapes, ∀ p ∈ s.2, p.1 < lonLen ∧ p.2 < latLen) :
    chunkRecords features latLen lonLen start len times shapes
      = some ((taskPairs len shapes.length).map fun jk =>
          globalTask features times shapes (start + jk.1) jk.2) := by
  rw [chunkRecords]
  exact mapOption_eq_some _ _ _ fun jk hjk =>
    chunkTask_eq features latLen lonLen start len times shapes jk.1 jk.2
      ((mem_taskPairs len shapes.length jk).mp hjk).1 hshapes

theorem chunksAux_of_le (N total fuel i : Nat) (h : total ≤ i) :
    chunksAux N total fuel i = [] := by
  cases fuel with
  | zero => rfl
  | succ fuel => rw [chunksAux, if_neg (by omega)]

theorem chunksAux_flatten {α : Type} (G : Nat → List α) (N total : Nat)
    (hN : 1 ≤ N) :
    ∀ fuel i : Nat, total - i ≤ fuel →
      ((chunksAux N total fuel i).map fun c =>
          ((List.range c.2).map fun j => G (c.1 + j)).flatten).flatten
        = ((List.range' i (total - i)).map G).flatten := by
  intro fuel
  induction fuel with
  | zero =>
    intro i h
    rw [chunksAux, show total - i = 0 by omega]
    rfl
  | succ fuel ih =>
    intro i h
    by_cases hi : i < total
    · rw [chunksAux, if_pos hi, List.map_cons, List.flatten_cons,
        ih (i + N) (by omega)]
      have hminr : min N (total - i) ≤ total - i := Nat.min_le_right _ _
      have hminl : min N (total - i) ≤ N := Nat.min_le_left _ _
      have hsplit : List.range' i (total - i)
          = List.range' i (min N (total - i))
            ++ List.range' (i + min N (total - i))
              (total - i - min N (total - i)) := by
        have happ := List.range'_append i (min N (total - i))
          (total - i - min N (total - i)) 1
        rw [one_mul,
          show total - i - min N (total - i) + min N (total - i) = total - i
            by omega] at happ
        exact happ.symm
      rw [hsplit, List.map_append, List.flatten_append]
      congr 1
      · rw [List.range'_eq_map_range, List.map_map]
        rfl
      · have hmc : min N (total - i) = N ∨ min N (total - i) = total - i :=
          min_choice _ _
        by_cases hcase : N ≤ total - i
        · have hlN : min N (total - i) = N := by omega
          rw [hlN, show total - i - N = total - (i + N) by omega]
        · have hl2 : min N (total - i) = total - i := by omega
          rw [hl2, show total - i - (total - i) = 0 by omega,
            show total - (i + N) = 0 by omega]
          rfl
    · rw [chunksAux, if_neg hi, show total - i = 0 by omega]
      rfl

theorem taskPairs_map_eq {α : Type} (len m : Nat) (F : Nat → Nat → α) :
    (taskPairs len m).map (fun jk => F jk.1 jk.2)
      = ((List.range len).map fun j => (List.range m).map fun k => F j k).flatten := by
  rw [taskPairs, List.map_flatten, List.map_map]
  congr 1
  apply List.map_congr_left
  intro j _
  simp only [Function.comp_apply, List.map_map]
  rfl

theorem engineRecords_eq (N : Nat) (features : List Feature)
    (latLen lonLen : Nat) (times : List Int)
    (shapes : List (String × List (Nat × Nat))) (hN : 1 ≤ N)
    (hshapes : ∀ s ∈ shapes, ∀ p ∈ s.2, p.1 < lonLen ∧ p.2 < latLen) :
    engineRecords N features latLen lonLen times shapes
      = some (globalRecords features times shapes) := by
  rw [engineRecords,
    mapOption_eq_some _
      (fun c => (taskPairs c.2 shapes.length).map fun jk =>
        globalTask features times shapes (c.1 + jk.1) jk.2)
      (chunks N times.length)
      (fun c _ => chunkRecords_eq features latLen lonLen c.1 c.2 times shapes hshapes),
    Option.map_some']
  congr 1
  have hper : ∀ c : Nat × Nat,
      ((taskPairs c.2 shapes.length).map fun jk =>
        globalTask features times shapes (c.1 + jk.1) jk.2)
      = ((List.range c.2).map fun j =>
          (List.range shapes.length).map fun k =>
            globalTask features times shapes (c.1 + j) k).flatten := by
    intro c
    exact taskPairs_map_eq c.2 shapes.length
      (fun j k => globalTask features times shapes (c.1 + j) k)
  rw [List.map_congr_left fun c _ => hper c, chunks,
    chunksAux_flatten (fun t => (List.range shapes.length).map fun k =>
      globalTask features times shapes t k) N times.length hN times.length 0
      (by omega)]
  rw [Nat.sub_zero, ← List.range_eq_range', globalRecords,
    taskPairs_map_eq times.length shapes.length
      (fun t k => globalTask features times shapes t k)]

/-- C5: for any two chunk sizes of at least 1 and identical inputs
(assignment map and data files, every assigned cell lying on the grid), two
runs of the Aggregation Engine produce the same records — here even the
same issue-ordered record list, hence the same multiset of
`(region, timestamp, min/max per feature)` records; chunking affects
performance only, never the emitted record set. -/
theorem C5_chunk_size_irrelevant (N1 N2 : Nat) (features : List Feature)
    (latLen lonLen : Nat) (times : List Int)
    (shapes : List (String × List (Nat × Nat)))
    (h1 : 1 ≤ N1) (h2 : 1 ≤ N2)
    (hshapes : ∀ s ∈ shapes, ∀ p ∈ s.2, p.1 < lonLen ∧ p.2 < latLen) :
    (engineRecords N1 features latLen lonLen times shapes).map
        (fun l => (l : Multiset Record))
      = (engineRecords N2 features latLen lonLen times shapes).map
        (fun l => (l : Multiset Record)) := by
  rw [engineRecords_eq N1 features latLen lonLen times shapes h1 hshapes,
    engineRecords_eq N2 features latLen lonLen times shapes h2 hshapes]

/-- Witness for C5: one constant feature with fill `5`, three time steps,
a single one-cell region, chunk sizes 1 and 2. -/
theorem C5_witness :
    (engineRecords 1 [⟨5, fun _ _ _ => 1⟩] 1 1 [100, 200, 250]
        [("A", [(0, 0)])]).map (fun l => (l : Multiset Record))
      = (engineRecords 2 [⟨5, fun _ _ _ => 1⟩] 1 1 [100, 200, 250]
        [("A", [(0, 0)])]).map (fun l => (l : Multiset Record)) :=
  C5_chunk_size_irrelevant 1 2 [⟨5, fun _ _ _ => 1⟩] 1 1 [100, 200, 250]
    [("A", [(0, 0)])] (by omega) (by omega) (by decide)

theorem mem_keys_shapesInsert (id k : String) (c : Nat × Nat)
    (m : List (String × List (Nat × Nat))) :
    id ∈ (shapesInsert k c m).map (·.1) ↔ id = k ∨ id ∈ m.map (·.1) := by
  induction m with
  | nil => simp [shapesInsert]
  | cons hd tl ih =>
    obtain ⟨hk, hv⟩ := hd
    by_cases h1 : k < hk
    · simp [shapesInsert, h1]
    · by_cases h2 : k = hk
      · subst h2; simp [shapesInsert, h1]
      · simp [shapesInsert, h1, h2, ih]; tauto

theorem assocCells_cons_of_ne (k id : String) (v : List (Nat × Nat))
    (tl : List (String × List (Nat × Nat))) (h : k ≠ id) :
    assocCells id ((k, v) :: tl) = assocCells id tl := by
  rw [assocCells, assocCells, List.find?_cons_of_neg]
  simp [h]

theorem assocCells_cons_self (id : String) (v : List (Nat × Nat))
    (tl : List (String × List (Nat × Nat))) :
    assocCells id ((id, v) :: tl) = v := by
  rw [assocCells, List.find?_cons_of_pos]
  simp

theorem keysSorted_shapesInsert (k : String) (c : Nat × Nat)
    (m : List (String × List (Nat × Nat))) (h : keysSorted m) :
    keysSorted (shapesInsert k c m) := by
  induction m with
  | nil => simp [shapesInsert, keysSorted]
  | cons hd tl ih =>
    obtain ⟨hk, hv⟩ := hd
    rw [keysSorted, List.pairwise_cons] at h
    by_cases h1 : k < hk
    · simp only [shapesInsert, if_pos h1]
      rw [keysSorted, List.pairwise_cons]
      refine ⟨fun b hb => ?_, List.Pairwise.cons h.1 h.2⟩
      rw [List.mem_cons] at hb
      rcases hb with hb | hb
      · subst hb; exact h1
      · exact lt_trans h1 (h.1 b hb)
    · by_cases h2 : k = hk
      · subst h2
        simp only [shapesInsert, if_neg h1]
        rw [if_pos True.intro, keysSorted, List.pairwise_cons]
        exact ⟨h.1, h.2⟩
      · have h3 : hk < k := by
          rcases lt_trichotomy k hk with h' | h' | h'
          · exact absurd h' h1
          · exact absurd h' h2
          · exact h'
        simp only [shapesInsert, if_neg h1, if_neg h2]
        rw [keysSorted, List.pairwise_cons]
        refine ⟨fun b hb => ?_, ih h.2⟩
        have hb1 : b.1 = k ∨ b.1 ∈ tl.map (·.1) :=
          (mem_keys_shapesInsert b.1 k c tl).mp (List.mem_map_of_mem (·.1) hb)
        rcases hb1 with hb1 | hb1
        · rw [hb1]; exact h3
        · obtain ⟨e, he, he1⟩ := List.mem_map.mp hb1
          rw [← he1]; exact h.1 e he

theorem assocCells_not_mem (id : String) (m : List (String × List (Nat × Nat)))
    (h : id ∉ m.map (·.1)) : assocCells id m = [] := by
  induction m with
  | nil => rfl
  | cons hd tl ih =>
    obtain ⟨hk, hv⟩ := hd
    simp only [List.map_cons, List.mem_cons] at h
    push_neg at h
    rw [assocCells_cons_of_ne hk id hv tl (Ne.symm h.1)]
    exact ih h.2

theorem assocCells_shapesInsert_ne (id k : String) (c : Nat × Nat)
    (m : List (String × List (Nat × Nat))) (h : k ≠ id) :
    assocCells id (shapesInsert k c m) = assocCells id m := by
  induction m with
  | nil =>
    simp only [shapesInsert]
    rw [assocCells_cons_of_ne k id [c] [] h]
  | cons hd tl ih =>
    obtain ⟨hk, hv⟩ := hd
    by_cases h1 : k < hk
    · simp only [shapesInsert, if_pos h1]
      rw [assocCells_cons_of_ne k id [c] _ h]
    · by_cases h2 : k = hk
      · subst h2
        simp only [shapesInsert, if_neg h1]
        rw [if_pos True.intro, assocCells_cons_of_ne k id _ _ h, assocCells_cons_of_ne k id _ _ h]
      · simp only [shapesInsert, if_neg h1, if_neg h2]
        by_cases h3 : hk = id
        · subst h3
          rw [assocCells_cons_self, assocCells_cons_self]
        · rw [assocCells_cons_of_ne hk id _ _ h3, assocCells_cons_of_ne hk id _ _ h3]
          exact ih

theorem assocCells_shapesInsert_self (id : String) (c : Nat × Nat)
    (m : List (String × List (Nat × Nat))) (h : keysSorted m) :
    assocCells id (shapesInsert id c m) = assocCells id m ++ [c] := by
  induction m with
  | nil =>
    simp only [shapesInsert]
    rw [assocCells_cons_self]
    rfl
  | cons hd tl ih =>
    obtain ⟨hk, hv⟩ := hd
    rw [keysSorted, List.pairwise_cons] at h
    by_cases h1 : id < hk
    · have hnm : id ∉ ((hk, hv) :: tl).map (·.1) := by
        simp only [List.map_cons, List.mem_cons]
        push_neg
        refine ⟨ne_of_lt h1, fun hmem => ?_⟩
        obtain ⟨e, he, he1⟩ := List.mem_map.mp hmem
        have := h.1 e he
        rw [he1] at this
        exact absurd (lt_trans h1 this) (lt_irrefl id)
      rw [assocCells_not_mem id _ hnm]
      simp only [shapesInsert, if_pos h1]
      rw [assocCells_cons_self]
      rfl
    · by_cases h2 : id = hk
      · subst h2
        simp only [shapesInsert, if_neg h1]
        rw [if_pos True.intro, assocCells_cons_self, assocCells_cons_self]
      · have h3 : hk ≠ id := fun hh => h2 hh.symm
        simp only [shapesInsert, if_neg h1, if_neg h2]
        rw [assocCells_cons_of_ne hk id _ _ h3, assocCells_cons_of_ne hk id _ _ h3]
        exact ih h.2

theorem keysSorted_foldl (lines : List (Nat × Nat × String))
    (m : List (String × List (Nat × Nat))) (h : keysSorted m) :
    keysSorted (lines.foldl (fun m l => shapesInsert l.2.2 (l.1, l.2.1) m) m) := by
  induction lines generalizing m with
  | nil => exact h
  | cons hd tl ih => exact ih _ (keysSorted_shapesInsert _ _ _ h)

theorem assocCells_foldl (lines : List (Nat × Nat × String))
    (m : List (String × List (Nat × Nat))) (id : String) (h : keysSorted m) :
    assocCells id (lines.foldl (fun m l => shapesInsert l.2.2 (l.1, l.2.1) m) m) =
      assocCells id m ++ cellsOf id lines := by
  induction lines generalizing m with
  | nil => simp [cellsOf]
  | cons hd tl ih =>
    obtain ⟨x, y, k⟩ := hd
    rw [List.foldl_cons, ih _ (keysSorted_shapesInsert _ _ _ h)]
    by_cases hk : k = id
    · subst hk
      rw [assocCells_shapesInsert_self _ _ _ h]
      simp [cellsOf]
    · rw [assocCells_shapesInsert_ne _ _ _ _ hk]
      simp [cellsOf, hk]

theorem mem_keys_foldl (lines : List (Nat × Nat × String))
    (m : List (String × List (Nat × Nat))) (id : String) :
    id ∈ (lines.foldl (fun m l => shapesInsert l.2.2 (l.1, l.2.1) m) m).map (·.1) ↔
      id ∈ m.map (·.1) ∨ id ∈ lines.map (·.2.2) := by
  induction lines generalizing m with
  | nil => simp
  | cons hd tl ih =>
    rw [List.foldl_cons, ih, mem_keys_shapesInsert]
    simp
    tauto

theorem keysSorted_loadShapes (lines : List (Nat × Nat × String)) :
    keysSorted (loadShapes lines) :=
  keysSorted_foldl lines [] List.Pairwise.nil

theorem assocCells_loadShapes (lines : List (Nat × Nat × String)) (id : String) :
    assocCells id (loadShapes lines) = cellsOf id lines := by
  have := assocCells_foldl lines [] id List.Pairwise.nil
  rw [loadShapes, this, assocCells]
  simp

theorem mem_keys_loadShapes (lines : List (Nat × Nat × String)) (id : String) :
    id ∈ (loadShapes lines).map (·.1) ↔ id ∈ lines.map (·.2.2) := by
  rw [loadShapes, mem_keys_foldl]
  simp

/-- C6 counterexample: two orderings of the same two assignment lines for
the region `"A"` make the loader produce different mappings — the region's
cell list follows input line order, so the mapping is not the same for
every two orderings of the lines. -/
theorem C6_counterexample :
    ([(0, 0, "A"), (1, 1, "A")] : List (Nat × Nat × String)).Perm
        [(1, 1, "A"), (0, 0, "A")] ∧
      loadShapes [(0, 0, "A"), (1, 1, "A")] ≠
        loadShapes [(1, 1, "A"), (0, 0, "A")] := by
  have e1 : loadShapes [(0, 0, "A"), (1, 1, "A")] = [("A", [(0, 0), (1, 1)])] := by
    simp [loadShapes, shapesInsert]
  have e2 : loadShapes [(1, 1, "A"), (0, 0, "A")] = [("A", [(1, 1), (0, 0)])] := by
    simp [loadShapes, shapesInsert]
  refine ⟨List.Perm.swap _ _ _, fun hEq => ?_⟩
  rw [e1, e2] at hEq
  simp at hEq

/-- C6 amended: for every multiset of assignment lines and every two
orderings of those lines, the loader produces the same sorted, deduplicated
region key list — regions are keyed, deduplicated and ordered by string id
independently of input line order — and, for each region id, cell lists
that are permutations of one another (the same multiset of cells); each
region's cell list reproduces exactly the cells the Index Builder wrote for
that region, in input line order (so the list itself, beyond its multiset,
depends on the line order). -/
theorem C6_grouping (l1 l2 : List (Nat × Nat × String)) (h : l1.Perm l2) :
    (loadShapes l1).map (·.1) = (loadShapes l2).map (·.1) ∧
    ((loadShapes l1).map (·.1)).Sorted (· < ·) ∧
    ((loadShapes l1).map (·.1)).Nodup ∧
    (∀ id, assocCells id (loadShapes l1) = cellsOf id l1) ∧
    (∀ id, (↑(assocCells id (loadShapes l1)) : Multiset (Nat × Nat)) =
      ↑(assocCells id (loadShapes l2))) := by
  have hs1 : ((loadShapes l1).map (·.1)).Sorted (· < ·) :=
    (List.pairwise_map).mpr (keysSorted_loadShapes l1)
  have hs2 : ((loadShapes l2).map (·.1)).Sorted (· < ·) :=
    (List.pairwise_map).mpr (keysSorted_loadShapes l2)
  have hn1 : ((loadShapes l1).map (·.1)).Nodup := hs1.imp ne_of_lt
  have hn2 : ((loadShapes l2).map (·.1)).Nodup := hs2.imp ne_of_lt
  refine ⟨?_, hs1, hn1, fun id => assocCells_loadShapes l1 id, fun id => ?_⟩
  · refine List.eq_of_perm_of_sorted ?_ hs1 hs2
    refine (List.perm_ext_iff_of_nodup hn1 hn2).mpr fun a => ?_
    rw [mem_keys_loadShapes, mem_keys_loadShapes]
    exact (h.map (·.2.2)).mem_iff
  · rw [assocCells_loadShapes, assocCells_loadShapes]
    exact Quot.sound (h.filterMap _)

/-- Witness for C6 amended: the two orderings of the counterexample satisfy
every conjunct; in particular their per-region cell multisets agree. -/
theorem C6_witness :
    (loadShapes [(0, 0, "A"), (1, 1, "A")]).map (·.1) =
      (loadShapes ([(1, 1, "A"), (0, 0, "A")] : List (Nat × Nat × String))).map (·.1) ∧
    ((loadShapes ([(0, 0, "A"), (1, 1, "A")] : List (Nat × Nat × String))).map (·.1)).Sorted (· < ·) ∧
    ((loadShapes ([(0, 0, "A"), (1, 1, "A")] : List (Nat × Nat × String))).map (·.1)).Nodup ∧
    (∀ id, assocCells id (loadShapes [(0, 0, "A"), (1, 1, "A")]) =
      cellsOf id [(0, 0, "A"), (1, 1, "A")]) ∧
    (∀ id, (↑(assocCells id (loadShapes [(0, 0, "A"), (1, 1, "A")])) : Multiset (Nat × Nat)) =
      ↑(assocCells id (loadShapes [(1, 1, "A"), (0, 0, "A")]))) :=
  C6_grouping [(0, 0, "A"), (1, 1, "A")] [(1, 1, "A"), (0, 0, "A")]
    (List.Perm.swap _ _ _)

/-- C4: in every reachable state of the engine's interleaving model in which
the driver is about to overwrite the shared per-feature buffers with the
next chunk's data, no worker still reads from them — the driver reaches the
buffer load only once the completion counter (bumped by the consumer after
each printed record) equals the cumulative number of `(local_time, region)`
tasks issued so far, at which point the task queue, the in-flight reads and
the unprinted results are all drained. -/
theorem C4_barrier (tasks : Nat → Nat) (s : EngState) (h : Reach tasks s)
    (hp : s.phase = Phase.load) :
    s.completed = s.issued ∧ s.inFlight = 0 ∧ s.queued = 0 ∧ s.pending = 0 := by
  obtain ⟨h1, h2⟩ := engInv_reach tasks s h
  have h3 := h2 hp
  omega

/-- Witness for C4: the initial state is reachable, has the driver in the
load phase, and satisfies the barrier property. -/
theorem C4_witness :
    initState.completed = initState.issued ∧ initState.inFlight = 0 ∧
      initState.queued = 0 ∧ initState.pending = 0 :=
  C4_barrier (fun _ => 1) initState Reach.init rfl

end NcProj
